import Mathlib

/-!
Verification of the PEPatch PE-mutation engine against its specification.

Each Go function under scrutiny is shallowly embedded as a pure Lean
function over lists of bytes (`List Nat`, each element < 256 by use) and
plain `Nat` machine words; 32-bit and 16-bit wrap-around is made explicit
with `% 2^32` / `% 2^16` exactly where the Go code computes in `uint32` /
`uint16`.  File writes (`WriteAt`) become `writeBytesAt`, which overwrites
in place and zero-fills any gap past the end of the file, matching the
POSIX semantics `os.File.WriteAt` relies on.
-/

/-- Read one byte of a file; reads past the end yield zero (matching the
zero-padded buffers of the Go code paths modelled here). -/
def byteAt (data : List Nat) (i : Nat) : Nat :=
  data.getD i 0

/-- Little-endian 32-bit word assembled from four bytes at offset `i`,
zero-padded past the end of the buffer, mirroring
`binary.LittleEndian.Uint32` applied to a zero-padded window. -/
def word32At (data : List Nat) (i : Nat) : Nat :=
  byteAt data i + 256 * byteAt data (i + 1) +
    65536 * byteAt data (i + 2) + 16777216 * byteAt data (i + 3)

/-- Little-endian byte serialisation of the low 32 bits of a value,
mirroring `binary.LittleEndian.PutUint32`. -/
def le32 (v : Nat) : List Nat :=
  [v % 256, v / 256 % 256, v / 65536 % 256, v / 16777216 % 256]

/-- Model of `file.WriteAt(bs, off)`: overwrite bytes starting at `off`,
extending the file and zero-filling any hole beyond its current end. -/
def writeBytesAt : List Nat → Nat → List Nat → List Nat
  | f, _, [] => f
  | [], 0, b :: bs => b :: writeBytesAt [] 0 bs
  | _ :: f, 0, b :: bs => b :: writeBytesAt f 0 bs
  | [], o + 1, bs => 0 :: writeBytesAt [] o bs
  | x :: f, o + 1, bs => x :: writeBytesAt f o bs
termination_by f off bs => f.length + off + bs.length

/-! ## Checksum engine (src/internal/pe/checksum.go) -/

/-- Loop of `CalculatePEChecksum`: walk the buffer in 4-byte steps from
index `i`, skipping the single iteration whose index equals the
checksum-field offset `c`, adding each little-endian dword and folding
the high 32 bits of the accumulator into the low 32 bits after each add.
The Go accumulator is a `uint64` that stays far below 2^64 (at most
2^32 + 2^32 - 1 right after an add), so plain `Nat` arithmetic is exact. -/
def checksumWords (data : List Nat) (n c i acc : Nat) : Nat :=
  if _h : i < n then
    let acc' := if i = c then acc else
      let s := acc + word32At data i
      s % 4294967296 + s / 4294967296
    checksumWords data n c (i + 4) acc'
  else acc
termination_by n - i
decreasing_by omega

/-- Model of `CalculatePEChecksum(r, filesize, checksumOffset)`: `data`
holds the first `filesize` bytes of the file, `n` is the file size and
`c` the checksum-field offset.  After the dword loop the low and high
16-bit halves are folded twice, the result is masked to 16 bits, the
file size is added and the Go return value is the `uint32` truncation. -/
def calculatePEChecksum (data : List Nat) (n c : Nat) : Nat :=
  let s0 := checksumWords data n c 0 0
  let s1 := s0 % 65536 + s0 / 65536
  let s2 := s1 + s1 / 65536
  let s3 := s2 % 65536
  (s3 + n) % 4294967296

/-- Folding step shared by the implementation loop and the word-list
presentation: skip the word at byte offset `c`, otherwise add and fold
the 32-bit carry. -/
def checksumStep (c : Nat) (acc : Nat) (kw : Nat × Nat) : Nat :=
  if kw.1 = c then acc
  else
    let s := acc + kw.2
    s % 4294967296 + s / 4294967296

/-- Specification-level checksum, written the way the spec words the
algorithm: chunk the file into 32-bit little-endian words (the trailing
partial word zero-padded on the right), sum them skipping the word whose
byte offset is `c` while folding the carry after each add, then fold the
16-bit halves twice, mask to 16 bits, and add the file length. -/
def checksumSpec (data : List Nat) (n c : Nat) : Nat :=
  let words := (List.range ((n + 3) / 4)).map (fun k => (4 * k, word32At data (4 * k)))
  let s0 := words.foldl (checksumStep c) 0
  let s1 := s0 % 65536 + s0 / 65536
  let s2 := s1 + s1 / 65536
  let s3 := s2 % 65536
  (s3 + n) % 4294967296

lemma checksumWords_eq_foldl (data : List Nat) (n c : Nat) (m : Nat) :
    ∀ j acc, (n + 3) / 4 - j ≤ m →
      checksumWords data n c (4 * j) acc =
        (((List.range ((n + 3) / 4)).drop j).map
          (fun k => (4 * k, word32At data (4 * k)))).foldl (checksumStep c) acc := by
  induction m with
  | zero =>
    intro j acc hj
    have h4 : ¬ 4 * j < n := by omega
    rw [checksumWords, dif_neg h4, List.drop_eq_nil_of_le (by simpa using by omega)]
    rfl
  | succ m ih =>
    intro j acc hj
    by_cases h4 : 4 * j < n
    · have hjlt : j < (n + 3) / 4 := by omega
      have hjlt' : j < ((List.range ((n + 3) / 4))).length := by simpa using hjlt
      rw [checksumWords, dif_pos h4, List.drop_eq_getElem_cons hjlt', List.getElem_range,
        List.map_cons, List.foldl_cons]
      have h41 : 4 * j + 4 = 4 * (j + 1) := by omega
      rw [h41, ih (j + 1) _ (by omega)]
      rfl
    · have hge : (n + 3) / 4 ≤ j := by omega
      rw [checksumWords, dif_neg h4, List.drop_eq_nil_of_le (by simpa using hge)]
      rfl

lemma calculatePEChecksum_eq_spec (data : List Nat) (n c : Nat) :
    calculatePEChecksum data n c = checksumSpec data n c := by
  have h := checksumWords_eq_foldl data n c ((n + 3) / 4) 0 0 (by omega)
  simp only [Nat.mul_zero, List.drop_zero] at h
  unfold calculatePEChecksum checksumSpec
  rw [h]

/-- Claim C5: the checksum implementation agrees, for every buffer, file
size and checksum-field offset, with the one's-complement folding
algorithm as the spec words it (sum of LE dwords skipping the word at
offset `c`, carry folded after each add, 16-bit halves folded twice,
masked, plus the file length), and on the 8-byte file
`01 00 00 00 02 00 00 00` with no checksum field inside the file it
returns 0xB. -/
theorem C5_checksum_algorithm :
    (∀ (data : List Nat) (n c : Nat),
        calculatePEChecksum data n c = checksumSpec data n c) ∧
      calculatePEChecksum [1, 0, 0, 0, 2, 0, 0, 0] 8 8 = 0xB := by
  refine ⟨calculatePEChecksum_eq_spec, ?_⟩
  rw [calculatePEChecksum_eq_spec]
  decide

/-! ## Patcher facade: UpdateChecksum (src/internal/pe/patcher.go) -/

/-- Error kinds surfaced by the mutators modelled in this development. -/
inductive PEError where
  | ioError
  | payloadTooLarge
  | emptyCode
  | zeroEntryPoint
  | headerOverflow
  | nameTooLong
  | unknownMagic
  | alreadyExported
  | notFound
deriving DecidableEq

/-- Model of `Patcher.UpdateChecksum`: read `e_lfanew` from the DOS
header (failing when the file is shorter than the 64-byte DOS header),
derive the checksum-field offset `e_lfanew + 4 + 20 + 64`, recompute the
checksum over the first `filesize` bytes (the patcher caches `filesize`
at open time, so it is passed separately) and write the new checksum
back at that offset. -/
def updateChecksum (filesize : Nat) (f : List Nat) : Except PEError (List Nat) :=
  if f.length < 64 then .error .ioError
  else
    let peHeaderOffset := word32At f 60
    let checksumOffset := peHeaderOffset + 4 + 20 + 64
    let newChecksum := calculatePEChecksum (f.take filesize) filesize checksumOffset
    .ok (writeBytesAt f checksumOffset (le32 newChecksum))

lemma length_le_writeBytesAt (f : List Nat) (off : Nat) (bs : List Nat) :
    f.length ≤ (writeBytesAt f off bs).length := by
  induction f, off, bs using writeBytesAt.induct with
  | case1 f off => rw [writeBytesAt.eq_1]
  | case2 b bs ih => rw [writeBytesAt.eq_2]; simp
  | case3 x f b bs ih => rw [writeBytesAt.eq_3]; simpa using ih
  | case4 o bs _hne ih => rw [writeBytesAt.eq_4 _ _ _hne]; simp
  | case5 x f o bs _hne ih => rw [writeBytesAt.eq_5 _ _ _ _ _hne]; simpa using ih

lemma byteAt_writeBytesAt_lt (f : List Nat) (off : Nat) (bs : List Nat) :
    ∀ j, j < off → byteAt (writeBytesAt f off bs) j = byteAt f j := by
  induction f, off, bs using writeBytesAt.induct with
  | case1 f off => intro j _hj; rw [writeBytesAt.eq_1]
  | case2 b bs ih => intro j hj; omega
  | case3 x f b bs ih => intro j hj; omega
  | case4 o bs _hne ih =>
    intro j hj
    rw [writeBytesAt.eq_4 _ _ _hne]
    cases j with
    | zero => simp [byteAt]
    | succ k => simpa [byteAt] using ih k (by omega)
  | case5 x f o bs _hne ih =>
    intro j hj
    rw [writeBytesAt.eq_5 _ _ _ _ _hne]
    cases j with
    | zero => simp [byteAt]
    | succ k => simpa [byteAt] using ih k (by omega)

lemma byteAt_writeBytesAt_ge (f : List Nat) (off : Nat) (bs : List Nat) :
    ∀ j, off + bs.length ≤ j → byteAt (writeBytesAt f off bs) j = byteAt f j := by
  induction f, off, bs using writeBytesAt.induct with
  | case1 f off => intro j _hj; rw [writeBytesAt.eq_1]
  | case2 b bs ih =>
    intro j hj
    rw [writeBytesAt.eq_2]
    cases j with
    | zero => simp at hj
    | succ k => simpa [byteAt] using ih k (by simp at hj ⊢; omega)
  | case3 x f b bs ih =>
    intro j hj
    rw [writeBytesAt.eq_3]
    cases j with
    | zero => simp at hj
    | succ k => simpa [byteAt] using ih k (by simp at hj ⊢; omega)
  | case4 o bs _hne ih =>
    intro j hj
    rw [writeBytesAt.eq_4 _ _ _hne]
    cases j with
    | zero => omega
    | succ k => simpa [byteAt] using ih k (by omega)
  | case5 x f o bs _hne ih =>
    intro j hj
    rw [writeBytesAt.eq_5 _ _ _ _ _hne]
    cases j with
    | zero => omega
    | succ k => simpa [byteAt] using ih k (by omega)

lemma writeBytesAt_idem (f : List Nat) (off : Nat) (bs : List Nat) :
    writeBytesAt (writeBytesAt f off bs) off bs = writeBytesAt f off bs := by
  induction f, off, bs using writeBytesAt.induct with
  | case1 f off => rw [writeBytesAt.eq_1, writeBytesAt.eq_1]
  | case2 b bs ih => rw [writeBytesAt.eq_2, writeBytesAt.eq_3, ih]
  | case3 x f b bs ih => rw [writeBytesAt.eq_3, writeBytesAt.eq_3, ih]
  | case4 o bs _hne ih =>
    rw [writeBytesAt.eq_4 _ _ _hne, writeBytesAt.eq_5 _ _ _ _ _hne, ih]
  | case5 x f o bs _hne ih =>
    rw [writeBytesAt.eq_5 _ _ _ _ _hne, writeBytesAt.eq_5 _ _ _ _ _hne, ih]

lemma byteAt_take (f : List Nat) (n j : Nat) :
    byteAt (f.take n) j = if j < n then byteAt f j else 0 := by
  unfold byteAt
  rw [List.getD_eq_getElem?_getD, List.getD_eq_getElem?_getD, List.getElem?_take]
  by_cases h : j < n
  · rw [if_pos h, if_pos h]
  · rw [if_neg h, if_neg h]
    rfl

lemma foldl_checksumStep_congr (c : Nat) (d1 d2 : List Nat) (hc : c % 4 = 0)
    (h : ∀ j, j < c ∨ c + 4 ≤ j → byteAt d1 j = byteAt d2 j) :
    ∀ (ks : List Nat) (acc : Nat),
      (ks.map (fun k => (4 * k, word32At d1 (4 * k)))).foldl (checksumStep c) acc =
        (ks.map (fun k => (4 * k, word32At d2 (4 * k)))).foldl (checksumStep c) acc := by
  intro ks
  induction ks with
  | nil => intro acc; rfl
  | cons k ks ih =>
    intro acc
    simp only [List.map_cons, List.foldl_cons]
    by_cases hk : 4 * k = c
    · have e1 : checksumStep c acc (4 * k, word32At d1 (4 * k)) = acc := if_pos hk
      have e2 : checksumStep c acc (4 * k, word32At d2 (4 * k)) = acc := if_pos hk
      rw [e1, e2, ih acc]
    · have hw : word32At d1 (4 * k) = word32At d2 (4 * k) := by
        unfold word32At
        rw [h (4 * k) (by omega), h (4 * k + 1) (by omega),
          h (4 * k + 2) (by omega), h (4 * k + 3) (by omega)]
      rw [hw, ih]

lemma calculatePEChecksum_congr (d1 d2 : List Nat) (n c : Nat) (hc : c % 4 = 0)
    (h : ∀ j, j < c ∨ c + 4 ≤ j → byteAt d1 j = byteAt d2 j) :
    calculatePEChecksum d1 n c = calculatePEChecksum d2 n c := by
  rw [calculatePEChecksum_eq_spec, calculatePEChecksum_eq_spec]
  simp only [checksumSpec]
  rw [foldl_checksumStep_congr c d1 d2 hc h _ 0]

lemma updateChecksum_ok (n : Nat) (f : List Nat) (h : ¬ f.length < 64) :
    updateChecksum n f =
      Except.ok (writeBytesAt f (word32At f 60 + 4 + 20 + 64)
        (le32 (calculatePEChecksum (f.take n) n (word32At f 60 + 4 + 20 + 64)))) := by
  simp only [updateChecksum, if_neg h]

/-- Claim C9: running `UpdateChecksum` twice in immediate succession is
idempotent — the second run recomputes the same value (the accumulation
skips the checksum dword, which is the only region the first run
changed) and rewrites the same four bytes, leaving the file unchanged.
Stated for files holding a full DOS header with a 4-byte-aligned
`e_lfanew`, as every well-formed PE has. -/
theorem C9_updateChecksum_idempotent (f : List Nat) (h64 : 64 ≤ f.length)
    (halign : word32At f 60 % 4 = 0) :
    (updateChecksum f.length f).bind (fun g => updateChecksum f.length g) =
      updateChecksum f.length f := by
  have hn : ¬ f.length < 64 := by omega
  rw [updateChecksum_ok f.length f hn]
  have hlen4 : (le32 (calculatePEChecksum (f.take f.length) f.length
      (word32At f 60 + 4 + 20 + 64))).length = 4 := by simp [le32]
  have hf1len : ¬ (writeBytesAt f (word32At f 60 + 4 + 20 + 64)
      (le32 (calculatePEChecksum (f.take f.length) f.length
        (word32At f 60 + 4 + 20 + 64)))).length < 64 := by
    have := length_le_writeBytesAt f (word32At f 60 + 4 + 20 + 64)
      (le32 (calculatePEChecksum (f.take f.length) f.length
        (word32At f 60 + 4 + 20 + 64)))
    omega
  show updateChecksum f.length (writeBytesAt f (word32At f 60 + 4 + 20 + 64) _) = _
  rw [updateChecksum_ok f.length _ hf1len]
  have he : word32At (writeBytesAt f (word32At f 60 + 4 + 20 + 64)
      (le32 (calculatePEChecksum (f.take f.length) f.length
        (word32At f 60 + 4 + 20 + 64)))) 60 = word32At f 60 := by
    unfold word32At
    rw [byteAt_writeBytesAt_lt _ _ _ 60 (by omega), byteAt_writeBytesAt_lt _ _ _ 61 (by omega),
      byteAt_writeBytesAt_lt _ _ _ 62 (by omega), byteAt_writeBytesAt_lt _ _ _ 63 (by omega)]
  rw [he]
  have hv : calculatePEChecksum
      ((writeBytesAt f (word32At f 60 + 4 + 20 + 64)
        (le32 (calculatePEChecksum (f.take f.length) f.length
          (word32At f 60 + 4 + 20 + 64)))).take f.length) f.length
      (word32At f 60 + 4 + 20 + 64) =
      calculatePEChecksum (f.take f.length) f.length
        (word32At f 60 + 4 + 20 + 64) := by
    apply calculatePEChecksum_congr _ _ _ _ (by omega)
    intro j hj
    rw [byteAt_take, byteAt_take]
    by_cases hjn : j < f.length
    · rw [if_pos hjn, if_pos hjn]
      rcases hj with hj | hj
      · exact byteAt_writeBytesAt_lt _ _ _ j hj
      · exact byteAt_writeBytesAt_ge _ _ _ j (by omega)
    · rw [if_neg hjn, if_neg hjn]
  rw [hv, writeBytesAt_idem]

/-! ## Code-cave engine (src/unnamed/part_003) -/

/-- Model of the `CodeCave` record: owning section name, file offset,
RVA, size and fill byte. -/
structure CodeCave where
  sectionName : List Nat
  offset : Nat
  rva : Nat
  size : Nat
  fillByte : Nat
deriving DecidableEq

/-- Section fields consumed by the cave scanner: name, raw-data file
offset and virtual address. -/
structure ScanSection where
  name : List Nat
  offset : Nat
  virtualAddress : Nat
deriving DecidableEq

/-- Model of `createCodeCave(section, start, end, fillByte)`: file offset
and RVA are the section base plus the in-section start, the size is the
run length, all in `uint32` arithmetic. -/
def createCodeCave (sec : ScanSection) (start endIdx fillByte : Nat) : CodeCave :=
  { sectionName := sec.name
    offset := (sec.offset + start) % 4294967296
    rva := (sec.virtualAddress + start) % 4294967296
    size := (endIdx - start) % 4294967296
    fillByte := fillByte }

/-- Scan loop of `findInSection`, carried out over the remaining bytes
with the running index `i`, the current cave start (`none` encodes the
Go sentinel `caveStart == -1`) and the current fill byte.  Emits
`(start, end, fillByte)` triples in the order the Go code appends
them. -/
def findCavesLoop (minSize : Nat) : List Nat → Nat → Option Nat → Nat →
    List (Nat × Nat × Nat)
  | [], i, caveStart, fillByte =>
    match caveStart with
    | some s => if minSize ≤ i - s then [(s, i, fillByte)] else []
    | none => []
  | b :: rest, i, caveStart, fillByte =>
    if b = 0 ∨ b = 0xCC then
      match caveStart with
      | none => findCavesLoop minSize rest (i + 1) (some i) b
      | some s =>
        if b ≠ fillByte then
          (if minSize ≤ i - s then [(s, i, fillByte)] else []) ++
            findCavesLoop minSize rest (i + 1) (some i) b
        else
          findCavesLoop minSize rest (i + 1) (some s) fillByte
    else
      match caveStart with
      | some s =>
        (if minSize ≤ i - s then [(s, i, fillByte)] else []) ++
          findCavesLoop minSize rest (i + 1) none fillByte
      | none => findCavesLoop minSize rest (i + 1) none fillByte

/-- Model of `findInSection(section, minSize)` applied to the section's
raw bytes `data`: run the scan from index 0 with no open cave and build
a `CodeCave` from every emitted run. -/
def findInSection (sec : ScanSection) (data : List Nat) (minSize : Nat) :
    List CodeCave :=
  (findCavesLoop minSize data 0 none 0).map
    (fun t => createCodeCave sec t.1 t.2.1 t.2.2)

/-- Run-length encoding of a byte sequence: the list of (byte, length)
pairs of its maximal constant runs, in order. -/
def rleRuns : List Nat → List (Nat × Nat)
  | [] => []
  | b :: rest =>
    match rleRuns rest with
    | [] => [(b, 1)]
    | (c, n) :: t => if b = c then (b, n + 1) :: t else (b, 1) :: (c, n) :: t

/-- Length of the leading constant run of `b`. -/
def countLeading (b : Nat) : List Nat → Nat
  | [] => 0
  | c :: rest => if c = b then countLeading b rest + 1 else 0

/-- Remainder after the leading constant run of `b`. -/
def dropLeading (b : Nat) : List Nat → List Nat
  | [] => []
  | c :: rest => if c = b then dropLeading b rest else c :: rest

/-- Specification-side cave enumeration: walk the maximal runs, keep
every run of a filler byte (0x00 or 0xCC) of length at least `minSize`,
and emit it as a `(start, end, fillByte)` triple. -/
def cavesOfRuns (minSize : Nat) : List (Nat × Nat) → Nat → List (Nat × Nat × Nat)
  | [], _ => []
  | (b, n) :: t, i =>
    if (b = 0 ∨ b = 0xCC) ∧ minSize ≤ n then
      (i, i + n, b) :: cavesOfRuns minSize t (i + n)
    else
      cavesOfRuns minSize t (i + n)

/-- Specification-side caves of a byte sequence: the filler runs of
length at least `minSize` among its maximal runs, starting at index 0. -/
def specCaves (minSize : Nat) (data : List Nat) : List (Nat × Nat × Nat) :=
  cavesOfRuns minSize (rleRuns data) 0

lemma rleRuns_cons_of_nil (b : Nat) (rest : List Nat) (hr : rleRuns rest = []) :
    rleRuns (b :: rest) = [(b, 1)] := by
  show (match rleRuns rest with
    | [] => [(b, 1)]
    | (d, n) :: t => if b = d then (b, n + 1) :: t else (b, 1) :: (d, n) :: t) = _
  rw [hr]

lemma rleRuns_cons_of_cons (b c n : Nat) (rest : List Nat) (t : List (Nat × Nat))
    (hr : rleRuns rest = (c, n) :: t) :
    rleRuns (b :: rest) =
      if b = c then (b, n + 1) :: t else (b, 1) :: (c, n) :: t := by
  show (match rleRuns rest with
    | [] => [(b, 1)]
    | (d, n) :: t => if b = d then (b, n + 1) :: t else (b, 1) :: (d, n) :: t) = _
  rw [hr]

lemma rleRuns_cons_span (rest : List Nat) :
    ∀ b, rleRuns (b :: rest) =
      (b, countLeading b rest + 1) :: rleRuns (dropLeading b rest) := by
  induction rest with
  | nil => intro b; rfl
  | cons c rest' ih =>
    intro b
    by_cases hbc : b = c
    · subst hbc
      cases hr : rleRuns rest' with
      | nil =>
        rw [rleRuns_cons_of_cons b b (countLeading b rest' + 1) _ _ (ih b), if_pos rfl]
        have h1 : countLeading b (b :: rest') = countLeading b rest' + 1 := by
          simp [countLeading]
        have h2 : dropLeading b (b :: rest') = dropLeading b rest' := by
          simp [dropLeading]
        rw [h1, h2]
      | cons p t =>
        rw [rleRuns_cons_of_cons b b (countLeading b rest' + 1) _ _ (ih b), if_pos rfl]
        have h1 : countLeading b (b :: rest') = countLeading b rest' + 1 := by
          simp [countLeading]
        have h2 : dropLeading b (b :: rest') = dropLeading b rest' := by
          simp [dropLeading]
        rw [h1, h2]
    · have hcb : ¬ c = b := fun h => hbc h.symm
      rw [rleRuns_cons_of_cons b c (countLeading c rest' + 1) _ _ (ih c), if_neg hbc,
        ← ih c]
      have h1 : countLeading b (c :: rest') = 0 := by
        simp [countLeading, if_neg hcb]
      have h2 : dropLeading b (c :: rest') = c :: rest' := by
        simp [dropLeading, if_neg hcb]
      rw [h1, h2]

/-- Sanity check on the run decomposition: concatenating each run back
yields the original byte sequence. -/
lemma rleRuns_flatten (data : List Nat) :
    ((rleRuns data).map (fun r => List.replicate r.2 r.1)).flatten = data := by
  induction data with
  | nil => rfl
  | cons b rest ih =>
    cases hr : rleRuns rest with
    | nil =>
      rw [hr] at ih
      simp only [List.map_nil, List.flatten_nil] at ih
      rw [rleRuns_cons_of_nil b rest hr, ← ih]
      simp
    | cons p t =>
      obtain ⟨c, n⟩ := p
      rw [hr] at ih
      rw [rleRuns_cons_of_cons b c n rest t hr]
      by_cases hbc : b = c
      · subst hbc
        rw [if_pos rfl]
        simp only [List.map_cons, List.flatten_cons] at ih ⊢
        rw [← ih]
        simp [List.replicate_succ]
      · rw [if_neg hbc]
        simp only [List.map_cons, List.flatten_cons] at ih ⊢
        rw [ih]
        simp [List.replicate_succ]

/-- Sanity check on the run decomposition: adjacent runs carry distinct
bytes (each run is maximal) and every run is non-empty. -/
lemma rleRuns_maximal (data : List Nat) :
    (rleRuns data).Chain' (fun p q => p.1 ≠ q.1) ∧
      ∀ r ∈ rleRuns data, 0 < r.2 := by
  induction data with
  | nil => exact ⟨List.chain'_nil, by intro r hr; cases hr⟩
  | cons b rest ih =>
    obtain ⟨ihc, ihp⟩ := ih
    cases hr : rleRuns rest with
    | nil =>
      rw [rleRuns_cons_of_nil b rest hr]
      exact ⟨by simp, by intro r hr'; simp at hr'; simp [hr']⟩
    | cons p t =>
      obtain ⟨c, n⟩ := p
      rw [hr] at ihc ihp
      rw [rleRuns_cons_of_cons b c n rest t hr]
      by_cases hbc : b = c
      · subst hbc
        rw [if_pos rfl]
        constructor
        · exact List.chain'_cons'.mpr ⟨(List.chain'_cons'.mp ihc).1,
            (List.chain'_cons'.mp ihc).2⟩
        · intro r hr'
          rcases List.mem_cons.mp hr' with h | h
          · subst h; simp
          · exact ihp r (List.mem_cons_of_mem _ h)
      · rw [if_neg hbc]
        constructor
        · exact List.chain'_cons.mpr ⟨hbc, ihc⟩
        · intro r hr'
          rcases List.mem_cons.mp hr' with h | h
          · subst h; simp
          · exact ihp r h

lemma cavesOfRuns_cons (m b n i : Nat) (t : List (Nat × Nat)) :
    cavesOfRuns m ((b, n) :: t) i =
      if (b = 0 ∨ b = 0xCC) ∧ m ≤ n then
        (i, i + n, b) :: cavesOfRuns m t (i + n)
      else cavesOfRuns m t (i + n) := rfl

lemma findCavesLoop_cons_none_filler (m b i fb : Nat) (rest : List Nat)
    (hb : b = 0 ∨ b = 0xCC) :
    findCavesLoop m (b :: rest) i none fb =
      findCavesLoop m rest (i + 1) (some i) b := by
  simp only [findCavesLoop, if_pos hb]

lemma findCavesLoop_cons_none_nonfiller (m b i fb : Nat) (rest : List Nat)
    (hb : ¬ (b = 0 ∨ b = 0xCC)) :
    findCavesLoop m (b :: rest) i none fb =
      findCavesLoop m rest (i + 1) none fb := by
  simp only [findCavesLoop, if_neg hb]

lemma findCavesLoop_cons_some_extend (m b i s fb : Nat) (rest : List Nat)
    (hb : b = 0 ∨ b = 0xCC) (hbf : b = fb) :
    findCavesLoop m (b :: rest) i (some s) fb =
      findCavesLoop m rest (i + 1) (some s) fb := by
  simp only [findCavesLoop, if_pos hb, if_neg (not_not_intro hbf)]

lemma findCavesLoop_cons_some_switch (m b i s fb : Nat) (rest : List Nat)
    (hb : b = 0 ∨ b = 0xCC) (hbf : b ≠ fb) :
    findCavesLoop m (b :: rest) i (some s) fb =
      (if m ≤ i - s then [(s, i, fb)] else []) ++
        findCavesLoop m rest (i + 1) (some i) b := by
  simp only [findCavesLoop, if_pos hb, if_pos hbf]

lemma findCavesLoop_cons_some_close (m b i s fb : Nat) (rest : List Nat)
    (hb : ¬ (b = 0 ∨ b = 0xCC)) :
    findCavesLoop m (b :: rest) i (some s) fb =
      (if m ≤ i - s then [(s, i, fb)] else []) ++
        findCavesLoop m rest (i + 1) none fb := by
  simp only [findCavesLoop, if_neg hb]

lemma cavesOfRuns_skip_nonfiller (m b : Nat) (hb : ¬ (b = 0 ∨ b = 0xCC))
    (l : List Nat) (i : Nat) :
    cavesOfRuns m (rleRuns l) i =
      cavesOfRuns m (rleRuns (dropLeading b l)) (i + countLeading b l) := by
  cases l with
  | nil => rfl
  | cons c l2 =>
    by_cases hcb : c = b
    · subst hcb
      rw [rleRuns_cons_span l2 c, cavesOfRuns_cons, if_neg (fun h => hb h.1)]
      have h1 : countLeading c (c :: l2) = countLeading c l2 + 1 := by
        simp [countLeading]
      have h2 : dropLeading c (c :: l2) = dropLeading c l2 := by
        simp [dropLeading]
      rw [h1, h2]
    · have h1 : countLeading b (c :: l2) = 0 := by
        simp [countLeading, if_neg hcb]
      have h2 : dropLeading b (c :: l2) = c :: l2 := by
        simp [dropLeading, if_neg hcb]
      rw [h1, h2, Nat.add_zero]

lemma findCavesLoop_eq_spec (m : Nat) (data : List Nat) :
    (∀ i fb, findCavesLoop m data i none fb = cavesOfRuns m (rleRuns data) i) ∧
      (∀ i s fb, s ≤ i → (fb = 0 ∨ fb = 0xCC) →
        findCavesLoop m data i (some s) fb =
          (if m ≤ i + countLeading fb data - s
            then [(s, i + countLeading fb data, fb)] else []) ++
            cavesOfRuns m (rleRuns (dropLeading fb data)) (i + countLeading fb data)) := by
  induction data with
  | nil =>
    refine ⟨fun i fb => rfl, fun i s fb hs hfb => ?_⟩
    show (if m ≤ i - s then [(s, i, fb)] else []) = _
    simp [countLeading, dropLeading, rleRuns, cavesOfRuns]
  | cons b rest ih =>
    obtain ⟨ihN, ihA⟩ := ih
    constructor
    · intro i fb
      by_cases hb : b = 0 ∨ b = 0xCC
      · rw [findCavesLoop_cons_none_filler m b i fb rest hb,
          ihA (i + 1) i b (by omega) hb,
          rleRuns_cons_span rest b, cavesOfRuns_cons]
        have e1 : i + 1 + countLeading b rest - i = countLeading b rest + 1 := by omega
        have e2 : i + 1 + countLeading b rest = i + (countLeading b rest + 1) := by omega
        rw [e1, e2]
        by_cases hm : m ≤ countLeading b rest + 1
        · rw [if_pos hm, if_pos ⟨hb, hm⟩]
          simp
        · rw [if_neg hm, if_neg (fun h => hm h.2)]
          simp
      · rw [findCavesLoop_cons_none_nonfiller m b i fb rest hb, ihN (i + 1) fb,
          rleRuns_cons_span rest b, cavesOfRuns_cons, if_neg (fun h => hb h.1),
          cavesOfRuns_skip_nonfiller m b hb rest (i + 1)]
        congr 1
        omega
    · intro i s fb hs hfb
      by_cases hbf : b = fb
      · subst hbf
        rw [findCavesLoop_cons_some_extend m b i s b rest hfb rfl,
          ihA (i + 1) s b (by omega) hfb]
        have h1 : countLeading b (b :: rest) = countLeading b rest + 1 := by
          simp [countLeading]
        have h2 : dropLeading b (b :: rest) = dropLeading b rest := by
          simp [dropLeading]
        rw [h1, h2]
        have e2 : i + (countLeading b rest + 1) = i + 1 + countLeading b rest := by omega
        rw [e2]
      · by_cases hb : b = 0 ∨ b = 0xCC
        · rw [findCavesLoop_cons_some_switch m b i s fb rest hb hbf,
            ihA (i + 1) i b (by omega) hb]
          have h1 : countLeading fb (b :: rest) = 0 := by
            simp [countLeading, if_neg hbf]
          have h2 : dropLeading fb (b :: rest) = b :: rest := by
            simp [dropLeading, if_neg hbf]
          rw [h1, h2, Nat.add_zero, rleRuns_cons_span rest b, cavesOfRuns_cons]
          have e1 : i + 1 + countLeading b rest - i = countLeading b rest + 1 := by omega
          have e2 : i + 1 + countLeading b rest = i + (countLeading b rest + 1) := by omega
          rw [e1, e2]
          congr 1
          by_cases hm : m ≤ countLeading b rest + 1
          · rw [if_pos hm, if_pos ⟨hb, hm⟩]
            simp
          · rw [if_neg hm, if_neg (fun h => hm h.2)]
            simp
        · have hbfb : b ≠ fb := hbf
          rw [findCavesLoop_cons_some_close m b i s fb rest hb, ihN (i + 1) fb]
          have h1 : countLeading fb (b :: rest) = 0 := by
            simp [countLeading, if_neg hbfb]
          have h2 : dropLeading fb (b :: rest) = b :: rest := by
            simp [dropLeading, if_neg hbfb]
          rw [h1, h2, Nat.add_zero, rleRuns_cons_span rest b, cavesOfRuns_cons]
          rw [if_neg (show ¬ ((b = 0 ∨ b = 0xCC) ∧ m ≤ countLeading b rest + 1) from
            fun h => hb h.1)]
          rw [cavesOfRuns_skip_nonfiller m b hb rest (i + 1)]
          have e2 : i + 1 + countLeading b rest = i + (countLeading b rest + 1) := by omega
          rw [e2]
          simp

/-- Claim C6: for every section and raw byte sequence, the code-cave
detector emits exactly the maximal constant runs of a filler byte (0x00
or 0xCC) whose length is at least `minSize`, in order, and nothing else;
a run of 0x00 directly followed by 0xCC yields two runs, a run reaching
the end of the data is emitted, and each cave records the section name,
file offset (section offset + run start), RVA (section virtual address +
run start), run length and fill byte. -/
theorem C6_code_cave_detector (sec : ScanSection) (data : List Nat) (minSize : Nat) :
    findInSection sec data minSize =
      (specCaves minSize data).map (fun t => createCodeCave sec t.1 t.2.1 t.2.2) := by
  unfold findInSection specCaves
  rw [(findCavesLoop_eq_spec minSize data).1 0 0]

/-- Result of a successful `InjectCodeCaveWithJump`: the entry point read
before patching, the file offset and bytes written, and the entry point
written back. -/
structure CaveInjection where
  originalEntry : Nat
  writtenAt : Nat
  written : List Nat
  newEntryPoint : Nat
deriving DecidableEq

/-- Model of `Patcher.InjectCodeCave(offset, code)`: rejects an empty
buffer, otherwise records the write. -/
def injectCodeCave (offset : Nat) (code : List Nat) :
    Except PEError (Nat × List Nat) :=
  if code.length = 0 then .error .emptyCode
  else .ok (offset, code)

/-- Model of `Patcher.PatchEntryPoint(newEntryPoint)`: rejects a zero
entry point, otherwise records the 32-bit value written. -/
def patchEntryPoint (newEntryPoint : Nat) : Except PEError Nat :=
  if newEntryPoint = 0 then .error .zeroEntryPoint
  else .ok (newEntryPoint % 4294967296)

/-- Model of `Patcher.InjectCodeCaveWithJump(cave, code, updateChecksum)`
for a patcher whose parsed entry point is `entryPoint`.  The guard
compares `uint32(len(code))` against `cave.Size - 5` computed in `uint32`
arithmetic (wrapping when `cave.Size < 5`); on the success path the
payload is followed by `E9 disp32` with
`disp32 = originalEntry - (cave.RVA + len(code) + 5)` in 32-bit
two's-complement, written at `cave.Offset`, and the entry point is
redirected to `cave.RVA`.  The optional checksum refresh is orthogonal to
the control flow modelled here and is elided (the `updateChecksum=false`
path). -/
def injectCodeCaveWithJump (entryPoint : Nat) (cave : CodeCave)
    (code : List Nat) : Except PEError CaveInjection :=
  if code.length % 4294967296 > (cave.size + 4294967296 - 5) % 4294967296 then
    .error .payloadTooLarge
  else
    let originalEntry := entryPoint % 4294967296
    let jumpSource := (cave.rva + code.length % 4294967296 + 5) % 4294967296
    let relativeOffset := (originalEntry + 4294967296 - jumpSource) % 4294967296
    let fullCode := code ++ 0xE9 :: le32 relativeOffset
    match injectCodeCave cave.offset fullCode with
    | .error e => .error e
    | .ok _ =>
      match patchEntryPoint cave.rva with
      | .error e => .error e
      | .ok newEP => .ok ⟨originalEntry, cave.offset, fullCode, newEP⟩

/-- Counterexample to claim C8 as stated, at two concrete inputs.  For
the empty payload and a cave of size `len + 4 = 4`, the guard subtraction
`cave.Size - 5` wraps in `uint32`, the check passes and the call
succeeds (returning the written jump bytes) instead of failing with
`PayloadTooLarge`; and for a cave of size `len + 5 = 5` whose RVA is
zero, the call fails (the entry-point patcher rejects 0) instead of
succeeding. -/
theorem C8_counterexample :
    injectCodeCaveWithJump 4096 ⟨[120], 100, 7, 4, 0⟩ [] =
        Except.ok ⟨4096, 100, [233, 244, 15, 0, 0], 7⟩ ∧
      injectCodeCaveWithJump 4096 ⟨[120], 100, 0, 5, 0⟩ [] =
        Except.error PEError.zeroEntryPoint := by
  constructor
  · rfl
  · rfl

lemma injectCodeCaveWithJump_ok (entryPoint : Nat) (cave : CodeCave)
    (code : List Nat)
    (hguard : ¬ code.length % 4294967296 >
      (cave.size + 4294967296 - 5) % 4294967296)
    (hrva : cave.rva ≠ 0) :
    injectCodeCaveWithJump entryPoint cave code =
      Except.ok ⟨entryPoint % 4294967296, cave.offset,
        code ++ 0xE9 :: le32 ((entryPoint % 4294967296 + 4294967296 -
          (cave.rva + code.length % 4294967296 + 5) % 4294967296) % 4294967296),
        cave.rva % 4294967296⟩ := by
  simp only [injectCodeCaveWithJump, injectCodeCave, patchEntryPoint,
    if_neg hguard]
  have hne : ¬ (code ++ 0xE9 :: le32 ((entryPoint % 4294967296 + 4294967296 -
      (cave.rva + code.length % 4294967296 + 5) % 4294967296) %
        4294967296)).length = 0 := by
    simp
  rw [if_neg hne, if_neg hrva]

lemma injectCodeCaveWithJump_rva_zero (entryPoint : Nat) (cave : CodeCave)
    (code : List Nat)
    (hguard : ¬ code.length % 4294967296 >
      (cave.size + 4294967296 - 5) % 4294967296)
    (hrva : cave.rva = 0) :
    injectCodeCaveWithJump entryPoint cave code =
      Except.error PEError.zeroEntryPoint := by
  simp only [injectCodeCaveWithJump, injectCodeCave, patchEntryPoint,
    if_neg hguard]
  have hne : ¬ (code ++ 0xE9 :: le32 ((entryPoint % 4294967296 + 4294967296 -
      (cave.rva + code.length % 4294967296 + 5) % 4294967296) %
        4294967296)).length = 0 := by
    simp
  rw [if_neg hne, if_pos hrva]

/-- Claim C8 (amended): for a payload of length below `2^32 - 5` and a
cave with a non-zero RVA, a cave of size exactly `len(code) + 5`
succeeds, writing the payload followed by `E9 disp32` with
`disp32 = (entry - (cave.RVA + len + 5)) mod 2^32` at the cave's file
offset and redirecting the entry point to the cave RVA; and a cave of
size exactly `len(code) + 4` with a non-empty payload fails with
`PayloadTooLarge` before anything is written.  (As the counterexample
shows, the unamended claim fails for the empty payload, where the
`uint32` guard wraps, and for caves at RVA 0, which the entry-point
patcher rejects.) -/
theorem C8_cave_size_boundaries (entryPoint : Nat) (cave : CodeCave)
    (code : List Nat) (hlen : code.length + 5 < 4294967296)
    (hrva : cave.rva ≠ 0) :
    (cave.size = code.length + 5 →
      injectCodeCaveWithJump entryPoint cave code =
        Except.ok ⟨entryPoint % 4294967296, cave.offset,
          code ++ 0xE9 :: le32 ((entryPoint % 4294967296 + 4294967296 -
            (cave.rva + code.length + 5) % 4294967296) % 4294967296),
          cave.rva % 4294967296⟩) ∧
    (cave.size = code.length + 4 → 1 ≤ code.length →
      injectCodeCaveWithJump entryPoint cave code =
        Except.error PEError.payloadTooLarge) := by
  constructor
  · intro hsize
    have hmod : code.length % 4294967296 = code.length := by omega
    rw [injectCodeCaveWithJump_ok entryPoint cave code (by omega) hrva, hmod]
  · intro hsize hpos
    have hguard : code.length % 4294967296 >
        (cave.size + 4294967296 - 5) % 4294967296 := by omega
    simp only [injectCodeCaveWithJump, if_pos hguard]

/-- Witness for C8 at a concrete input: a 3-byte payload and a cave of
size 8 = 3 + 5 at RVA 0x500 succeed with the expected bytes, and a cave
of size 7 = 3 + 4 fails with `PayloadTooLarge`. -/
theorem C8_cave_size_boundaries_witness :
    [144, 144, 144].length + 5 < 4294967296 ∧ (1280 : Nat) ≠ 0 ∧
      (injectCodeCaveWithJump 8192 ⟨[120], 64, 1280, 8, 0⟩ [144, 144, 144] =
          Except.ok ⟨8192, 64,
            [144, 144, 144] ++ 233 :: le32 ((8192 + 4294967296 -
              (1280 + 3 + 5) % 4294967296) % 4294967296), 1280⟩) ∧
      (injectCodeCaveWithJump 8192 ⟨[120], 64, 1280, 7, 0⟩ [144, 144, 144] =
          Except.error PEError.payloadTooLarge) := by
  refine ⟨by decide, by decide, ?_, ?_⟩
  · have h := (C8_cave_size_boundaries 8192 ⟨[120], 64, 1280, 8, 0⟩ [144, 144, 144]
      (by decide) (by decide)).1 (by decide)
    simpa using h
  · exact (C8_cave_size_boundaries 8192 ⟨[120], 64, 1280, 7, 0⟩ [144, 144, 144]
      (by decide) (by decide)).2 (by decide) (by decide)

/-- Claim C10: for every cave whose `Size` field is below 5 and every
non-empty payload (of any realistic length, below `2^32 - 4`), the
injector never reports `PayloadTooLarge`: the `uint32` guard
`len(code) > cave.Size - 5` wraps to a bound of at least `2^32 - 5`, the
check passes, and whenever the call succeeds it has written the payload
plus the 5-byte jump — more bytes than the cave holds. -/
theorem C10_size_guard_underflow (entryPoint : Nat) (cave : CodeCave)
    (code : List Nat) (hsize : cave.size < 5) (hpos : 0 < code.length)
    (hlen : code.length + 4 < 4294967296) :
    injectCodeCaveWithJump entryPoint cave code ≠
        Except.error PEError.payloadTooLarge ∧
      (∀ r, injectCodeCaveWithJump entryPoint cave code = Except.ok r →
        r.written.length = code.length + 5 ∧ cave.size < r.written.length) := by
  have hguard : ¬ code.length % 4294967296 >
      (cave.size + 4294967296 - 5) % 4294967296 := by omega
  constructor
  · by_cases hrva : cave.rva = 0
    · rw [injectCodeCaveWithJump_rva_zero entryPoint cave code hguard hrva]
      simp
    · rw [injectCodeCaveWithJump_ok entryPoint cave code hguard hrva]
      simp
  · intro r hr
    by_cases hrva : cave.rva = 0
    · rw [injectCodeCaveWithJump_rva_zero entryPoint cave code hguard hrva] at hr
      simp at hr
    · rw [injectCodeCaveWithJump_ok entryPoint cave code hguard hrva] at hr
      have hw := (Except.ok.inj hr).symm
      rw [hw]
      simp [le32]
      omega

/-- Witness for C10 at a concrete input: a cave of size 3 and a 1-byte
payload pass the guard, so the call does not report `PayloadTooLarge`. -/
theorem C10_size_guard_underflow_witness :
    (3 : Nat) < 5 ∧ 0 < [1].length ∧ [1].length + 4 < 4294967296 ∧
      injectCodeCaveWithJump 4096 ⟨[120], 10, 32, 3, 0⟩ [1] ≠
        Except.error PEError.payloadTooLarge := by
  refine ⟨by decide, by decide, by decide, ?_⟩
  exact (C10_size_guard_underflow 4096 ⟨[120], 10, 32, 3, 0⟩ [1]
    (by decide) (by decide) (by decide)).1

/-! ## Import-table rewriter (src/internal/pe/import.go) -/

/-- The five fields of `IMAGE_IMPORT_DESCRIPTOR`. -/
structure ImportDescriptor where
  originalFirstThunk : Nat
  timeDateStamp : Nat
  forwarderChain : Nat
  name : Nat
  firstThunk : Nat
deriving DecidableEq

/-- A decoded imported function: name (bytes), ordinal, by-ordinal flag
and hint, mirroring `ImportFunction`. -/
structure ImportFunction where
  name : List Nat
  ordinal : Nat
  isByOrdinal : Bool
  hint : Nat
deriving DecidableEq

/-- Decoded working set of one existing import, mirroring
`ExistingImportData` (the raw INT/IAT entry lists are omitted: the
compatible rebuild reads only the descriptor, the DLL name and the
decoded functions). -/
structure ExistingImportData where
  descriptor : ImportDescriptor
  dllName : List Nat
  functions : List ImportFunction
deriving DecidableEq

/-- Model of `encodeDescriptor`: the 20-byte little-endian serialisation
of a descriptor. -/
def encodeDescriptor (d : ImportDescriptor) : List Nat :=
  le32 d.originalFirstThunk ++ le32 d.timeDateStamp ++ le32 d.forwarderChain ++
    le32 d.name ++ le32 d.firstThunk

/-- Model of `getPtrSize`. -/
def getPtrSize (is64bit : Bool) : Nat :=
  if is64bit then 8 else 4

/-- Prefix offsets of consecutively laid out blocks of the given sizes,
starting at `start`, each step in `uint32` arithmetic — the
`currentOffset` accumulation of `buildCompatibleImportData`. -/
def offsetsFrom (start : Nat) : List Nat → List Nat
  | [] => []
  | s :: rest => start :: offsetsFrom ((start + s) % 4294967296) rest

/-- Offset just past consecutively laid out blocks of the given sizes. -/
def offsetsEnd (start : Nat) : List Nat → Nat
  | [] => start
  | s :: rest => offsetsEnd ((start + s) % 4294967296) rest

/-- Per-import INT block sizes, `uint32(len(imp.Functions)+1) * ptrSize`. -/
def intSizes (existing : List ExistingImportData) (ptrSize : Nat) : List Nat :=
  existing.map (fun imp => ((imp.functions.length + 1) * ptrSize) % 4294967296)

/-- Per-import DLL-name block sizes, `uint32(len(imp.DLLName)) + 1`. -/
def dllNameSizes (existing : List ExistingImportData) : List Nat :=
  existing.map (fun imp => (imp.dllName.length + 1) % 4294967296)

/-- Descriptor-emission part of `buildCompatibleImportData` (lines
419-485): lay out the new section as descriptor table, per-DLL INTs for
existing imports, INT and IAT for the new import, then DLL names, and
emit one descriptor per existing import with `OriginalFirstThunk` and
`Name` retargeted into the new section but `FirstThunk` copied verbatim
from the original descriptor, followed by the new import's descriptor
and the all-zero terminator. -/
def buildCompatibleDescriptors (existing : List ExistingImportData)
    (newDLL : List Nat) (newFunctions : List (List Nat)) (is64bit : Bool)
    (baseRVA : Nat) : List ImportDescriptor :=
  let ptrSize := getPtrSize is64bit
  let descTableSize := ((existing.length + 2) * 20) % 4294967296
  let intOffs := offsetsFrom descTableSize (intSizes existing ptrSize)
  let newINTOffset := offsetsEnd descTableSize (intSizes existing ptrSize)
  let newIATOffset :=
    (newINTOffset + ((newFunctions.length + 1) * ptrSize) % 4294967296) % 4294967296
  let afterIAT :=
    (newIATOffset + ((newFunctions.length + 1) * ptrSize) % 4294967296) % 4294967296
  let dllOffs := offsetsFrom afterIAT (dllNameSizes existing)
  let newDLLNameOffset := offsetsEnd afterIAT (dllNameSizes existing)
  (existing.zip (intOffs.zip dllOffs)).map (fun p =>
    { originalFirstThunk := (baseRVA + p.2.1) % 4294967296
      timeDateStamp := 0
      forwarderChain := 0
      name := (baseRVA + p.2.2) % 4294967296
      firstThunk := p.1.descriptor.firstThunk })
  ++ [{ originalFirstThunk := (baseRVA + newINTOffset) % 4294967296
        timeDateStamp := 0
        forwarderChain := 0
        name := (baseRVA + newDLLNameOffset) % 4294967296
        firstThunk := (baseRVA + newIATOffset) % 4294967296 },
      { originalFirstThunk := 0, timeDateStamp := 0, forwarderChain := 0,
        name := 0, firstThunk := 0 }]

lemma length_offsetsFrom (start : Nat) (l : List Nat) :
    (offsetsFrom start l).length = l.length := by
  induction l generalizing start with
  | nil => rfl
  | cons s rest ih => simp [offsetsFrom, ih]

lemma length_encodeDescriptor (d : ImportDescriptor) :
    (encodeDescriptor d).length = 20 := by
  simp [encodeDescriptor, le32]

lemma byteAt_append_right (xs ys : List Nat) (k : Nat) :
    byteAt (xs ++ ys) (xs.length + k) = byteAt ys k := by
  unfold byteAt
  rw [List.getD_append_right _ _ _ _ (by omega)]
  congr 1
  omega

lemma word32At_append_right (xs ys : List Nat) (k : Nat) :
    word32At (xs ++ ys) (xs.length + k) = word32At ys k := by
  unfold word32At
  have h0 := byteAt_append_right xs ys k
  have h1 := byteAt_append_right xs ys (k + 1)
  have h2 := byteAt_append_right xs ys (k + 2)
  have h3 := byteAt_append_right xs ys (k + 3)
  rw [show xs.length + k + 1 = xs.length + (k + 1) by omega,
    show xs.length + k + 2 = xs.length + (k + 2) by omega,
    show xs.length + k + 3 = xs.length + (k + 3) by omega, h0, h1, h2, h3]

lemma word32At_le32_append (v : Nat) (rest : List Nat) :
    word32At (le32 v ++ rest) 0 = v % 4294967296 := by
  simp [word32At, byteAt, le32]
  omega

lemma word32At_encodeDescriptor_firstThunk (d : ImportDescriptor)
    (rest : List Nat) :
    word32At (encodeDescriptor d ++ rest) 16 = d.firstThunk % 4294967296 := by
  have hassoc : encodeDescriptor d ++ rest =
      (le32 d.originalFirstThunk ++ le32 d.timeDateStamp ++
        le32 d.forwarderChain ++ le32 d.name) ++ (le32 d.firstThunk ++ rest) := by
    simp [encodeDescriptor]
  have hlen : (le32 d.originalFirstThunk ++ le32 d.timeDateStamp ++
      le32 d.forwarderChain ++ le32 d.name).length = 16 := by
    simp [le32]
  rw [hassoc, show (16 : Nat) = (le32 d.originalFirstThunk ++ le32 d.timeDateStamp ++
      le32 d.forwarderChain ++ le32 d.name).length + 0 by rw [hlen],
    word32At_append_right, word32At_le32_append]

/-- Every serialised descriptor table exposes, at byte offset
`20 * i + 16`, the `FirstThunk` field of its `i`-th descriptor. -/
lemma word32At_flatten_encode :
    ∀ (descs : List ImportDescriptor) (i : Nat) (h : i < descs.length),
      word32At ((descs.map encodeDescriptor).flatten) (20 * i + 16) =
        (descs.get ⟨i, h⟩).firstThunk % 4294967296 := by
  intro descs
  induction descs with
  | nil => intro i h; exact absurd h (by simp)
  | cons d ds ih =>
    intro i h
    cases i with
    | zero =>
      show word32At (encodeDescriptor d ++ (ds.map encodeDescriptor).flatten)
          (20 * 0 + 16) = _
      rw [show 20 * 0 + 16 = 16 by omega, word32At_encodeDescriptor_firstThunk]
      rfl
    | succ k =>
      show word32At (encodeDescriptor d ++ (ds.map encodeDescriptor).flatten)
          (20 * (k + 1) + 16) = _
      rw [show 20 * (k + 1) + 16 = (encodeDescriptor d).length + (20 * k + 16) by
          rw [length_encodeDescriptor]; omega,
        word32At_append_right, ih k (by simpa using h)]
      rfl

lemma map_fst_comp_zip {α β γ : Type} (f : α → γ) (a : List α) (b : List β)
    (h : a.length ≤ b.length) :
    (a.zip b).map (fun p => f p.1) = a.map f := by
  have h1 : (a.zip b).map (fun p => f p.1) = ((a.zip b).map Prod.fst).map f := by
    rw [List.map_map]
    rfl
  rw [h1, List.map_fst_zip a b h]

lemma buildCompatibleDescriptors_length (existing : List ExistingImportData)
    (newDLL : List Nat) (newFunctions : List (List Nat)) (is64bit : Bool)
    (baseRVA : Nat) :
    (buildCompatibleDescriptors existing newDLL newFunctions is64bit
        baseRVA).length = existing.length + 2 := by
  simp [buildCompatibleDescriptors, List.length_zip, length_offsetsFrom,
    intSizes, dllNameSizes]

lemma buildCompatibleDescriptors_get_firstThunk
    (existing : List ExistingImportData) (newDLL : List Nat)
    (newFunctions : List (List Nat)) (is64bit : Bool) (baseRVA : Nat)
    (i : Nat) (h : i < existing.length)
    (hlen : i < (buildCompatibleDescriptors existing newDLL newFunctions
      is64bit baseRVA).length) :
    ((buildCompatibleDescriptors existing newDLL newFunctions is64bit
        baseRVA).get ⟨i, hlen⟩).firstThunk =
      (existing.get ⟨i, h⟩).descriptor.firstThunk := by
  rw [List.get_eq_getElem, List.get_eq_getElem]
  simp only [buildCompatibleDescriptors] at hlen ⊢
  rw [List.getElem_append_left (by
    simp [List.length_zip, length_offsetsFrom, intSizes, dllNameSizes]
    omega)]
  rw [List.getElem_map, List.getElem_zip]

/-- Claim C1: after a successful `AddImport`, every import descriptor
that existed before the call is re-emitted — at its original position in
the rebuilt table, which holds the existing descriptors, the new one and
the null terminator — with its `FirstThunk` field copied verbatim, so
every original IAT stays at its original RVA.  Stated structurally (the
`FirstThunk` column of the re-emitted prefix equals the original one),
and at the byte level of the serialised table (`FirstThunk` sits at
offset `20 * i + 16` of descriptor `i`). -/
theorem C1_iat_preservation (existing : List ExistingImportData)
    (newDLL : List Nat) (newFunctions : List (List Nat)) (is64bit : Bool)
    (baseRVA : Nat) :
    (((buildCompatibleDescriptors existing newDLL newFunctions is64bit
          baseRVA).map (fun d => d.firstThunk)).take existing.length =
        existing.map (fun imp => imp.descriptor.firstThunk)) ∧
      (buildCompatibleDescriptors existing newDLL newFunctions is64bit
          baseRVA).length = existing.length + 2 ∧
      (∀ i (h : i < existing.length),
        word32At (((buildCompatibleDescriptors existing newDLL newFunctions
            is64bit baseRVA).map encodeDescriptor).flatten) (20 * i + 16) =
          (existing.get ⟨i, h⟩).descriptor.firstThunk % 4294967296) := by
  refine ⟨?_, buildCompatibleDescriptors_length existing newDLL newFunctions
    is64bit baseRVA, ?_⟩
  · simp only [buildCompatibleDescriptors, List.map_append]
    have hzl : ∀ s1 s2 : Nat,
        ((offsetsFrom s1 (intSizes existing (getPtrSize is64bit))).zip
          (offsetsFrom s2 (dllNameSizes existing))).length = existing.length := by
      intro s1 s2
      simp [List.length_zip, length_offsetsFrom, intSizes, dllNameSizes]
    rw [List.take_append_of_le_length (by simp [hzl])]
    rw [List.take_of_length_le (by simp [hzl])]
    rw [List.map_map]
    refine map_fst_comp_zip (fun e => e.descriptor.firstThunk) existing _ ?_
    rw [hzl]
  · intro i h
    have hlen : i < (buildCompatibleDescriptors existing newDLL newFunctions
        is64bit baseRVA).length := by
      rw [buildCompatibleDescriptors_length]
      omega
    rw [word32At_flatten_encode _ i hlen,
      buildCompatibleDescriptors_get_firstThunk existing newDLL newFunctions
        is64bit baseRVA i h hlen]

/-- Witness for C1 at a concrete input: one existing import (descriptor
with `FirstThunk = 0x2000`) plus a new one-function DLL; the re-emitted
first descriptor's `FirstThunk` bytes read back as 0x2000. -/
theorem C1_iat_preservation_witness :
    (0 : Nat) < ([⟨⟨0x3000, 0, 0, 0x3100, 0x2000⟩, [117],
        [⟨[102], 0, false, 0⟩]⟩] : List ExistingImportData).length ∧
      word32At ((((buildCompatibleDescriptors
          [⟨⟨0x3000, 0, 0, 0x3100, 0x2000⟩, [117], [⟨[102], 0, false, 0⟩]⟩]
          [117] [[102]] true 4096).map encodeDescriptor).flatten)) (20 * 0 + 16) =
        0x2000 := by
  refine ⟨by decide, ?_⟩
  have h := (C1_iat_preservation
    [⟨⟨0x3000, 0, 0, 0x3100, 0x2000⟩, [117], [⟨[102], 0, false, 0⟩]⟩]
    [117] [[102]] true 4096).2.2 0 (by decide)
  simpa using h

/-- Data Directory update performed by `updateImportDirectoryInPlace`
(lines 730-751), at the level of the 16-entry `(RVA, Size)` directory
array: write Import (index 1) and IAT (index 12) and — per the comment
"Don't clear other directories - keep them as-is" — touch nothing else.
Values are truncated to 32 bits as `PutUint32` does. -/
def updateImportDirectoryInPlace (dirs : List (Nat × Nat))
    (importRVA importSize : Nat) (iatInfo : Nat × Nat) : List (Nat × Nat) :=
  (dirs.set 1 (importRVA % 4294967296, importSize % 4294967296)).set 12
    (iatInfo.1 % 4294967296, iatInfo.2 % 4294967296)

/-- Counterexample to claim C2: on a 16-entry directory whose Load
Config (10) and Bound Import (11) entries are non-zero, the directory
update that `AddImport` performs leaves both entries untouched rather
than clearing them to `(0, 0)`. -/
theorem C2_counterexample :
    (updateImportDirectoryInPlace
        (((List.replicate 16 ((0 : Nat), (0 : Nat))).set 10 (5, 6)).set 11 (7, 8))
        4096 40 (8192, 16)).getD 11 (0, 0) ≠ (0, 0) ∧
      (updateImportDirectoryInPlace
        (((List.replicate 16 ((0 : Nat), (0 : Nat))).set 10 (5, 6)).set 11 (7, 8))
        4096 40 (8192, 16)).getD 10 (0, 0) ≠ (0, 0) := by
  constructor
  · decide
  · decide

/-- Claim C2 (amended): after a successful `AddImport`, the Data
Directory update writes only Import (index 1, with the new section RVA
and descriptor-table size) and IAT (index 12, with the preserved RVA and
extended size); Bound Import (11), Load Config (10) and every other
index — Delay Import (13) included — keep their previous values, and are
in particular not cleared to `(0, 0)`. -/
theorem C2_directories_updated (dirs : List (Nat × Nat))
    (importRVA importSize : Nat) (iatRVA iatSize : Nat)
    (h16 : dirs.length = 16) :
    (updateImportDirectoryInPlace dirs importRVA importSize
        (iatRVA, iatSize)).getD 1 (0, 0) =
      (importRVA % 4294967296, importSize % 4294967296) ∧
    (updateImportDirectoryInPlace dirs importRVA importSize
        (iatRVA, iatSize)).getD 12 (0, 0) =
      (iatRVA % 4294967296, iatSize % 4294967296) ∧
    ∀ j, j ≠ 1 → j ≠ 12 →
      (updateImportDirectoryInPlace dirs importRVA importSize
          (iatRVA, iatSize)).getD j (0, 0) = dirs.getD j (0, 0) := by
  have hlen1 : (dirs.set 1 (importRVA % 4294967296,
      importSize % 4294967296)).length = 16 := by simp [h16]
  refine ⟨?_, ?_, ?_⟩
  · unfold updateImportDirectoryInPlace
    unfold byteAt at *
    rw [List.getD_eq_getElem?_getD, List.getElem?_set, if_neg (by omega),
      List.getElem?_set, if_pos rfl, if_pos (by omega)]
    rfl
  · unfold updateImportDirectoryInPlace
    rw [List.getD_eq_getElem?_getD, List.getElem?_set, if_pos rfl,
      if_pos (by omega)]
    rfl
  · intro j h1 h12
    unfold updateImportDirectoryInPlace
    rw [List.getD_eq_getElem?_getD, List.getElem?_set,
      if_neg (fun h => h12 h.symm), List.getElem?_set,
      if_neg (fun h => h1 h.symm), List.getD_eq_getElem?_getD]

/-- Witness for C2 at a concrete directory array. -/
theorem C2_directories_updated_witness :
    (((List.replicate 16 ((0 : Nat), (0 : Nat))).set 10 (5, 6)).set 11
        (7, 8)).length = 16 ∧
      (updateImportDirectoryInPlace
          (((List.replicate 16 ((0 : Nat), (0 : Nat))).set 10 (5, 6)).set 11 (7, 8))
          4096 40 (8192, 16)).getD 11 (0, 0) =
        (((List.replicate 16 ((0 : Nat), (0 : Nat))).set 10 (5, 6)).set 11
          (7, 8)).getD 11 (0, 0) := by
  refine ⟨by decide, ?_⟩
  exact (C2_directories_updated
    (((List.replicate 16 ((0 : Nat), (0 : Nat))).set 10 (5, 6)).set 11 (7, 8))
    4096 40 8192 16 (by decide)).2.2 11 (by decide) (by decide)

/-! ## Data Directory location (import.go, resource.go, entropy.go) -/

/-- Locator used by `updateImportDirectoryInPlace` (import.go lines
712-728): the Data Directory offset is derived from the Optional Header
magic word — 96 past the Optional Header start for PE32 (0x10B), 112 for
PE32+ (0x20B), an error otherwise. -/
def importDataDirOffset (optHeaderStart : Nat) (magic : Nat) :
    Except PEError Nat :=
  if magic = 0x10B then .ok (optHeaderStart + 96)
  else if magic = 0x20B then .ok (optHeaderStart + 112)
  else .error .unknownMagic

/-- Locator used by `updateExportDirectory` (resource.go lines 864-880):
the Data Directory offset is derived from the COFF `Machine` field — 112
past the Optional Header start when `Machine = 0x8664`, 96 otherwise —
not from the Optional Header magic. -/
def exportDataDirOffset (peOffset : Nat) (machine : Nat) : Nat :=
  if machine = 0x8664 then peOffset + 4 + 20 + 112
  else peOffset + 4 + 20 + 96

/-- Locator used by `RemoveSignature` (entropy.go/signature part, lines
492-499): the Security Directory entry offset, also derived from the
COFF `Machine` field, 4 directory slots (32 bytes) past the Data
Directory base. -/
def securityDirPatchOffset (peOffset : Nat) (machine : Nat) : Nat :=
  if machine = 0x8664 then peOffset + 4 + 20 + 112 + 8 * 4
  else peOffset + 4 + 20 + 96 + 8 * 4

/-- Counterexample to claim C3: for a PE32+ image (magic 0x20B) whose
COFF machine is not 0x8664 — here ARM64, 0xAA64, with `e_lfanew = 128` —
the export rewriter computes Data Directory offset 248 while the magic
word places it at 264, so the export rewriter (and likewise the
signature remover) does not locate the Data Directory from the magic
word but from the Machine field. -/
theorem C3_counterexample :
    exportDataDirOffset 128 0xAA64 = 248 ∧
      importDataDirOffset (128 + 4 + 20) 0x20B = Except.ok 264 ∧
      securityDirPatchOffset 128 0xAA64 = 248 + 32 ∧ (248 : Nat) ≠ 264 := by
  refine ⟨by decide, rfl, by decide, by decide⟩

/-- Claim C3 (amended): only the import rewriter locates the Data
Directory from the Optional Header magic word (offset 96 for 0x10B, 112
for 0x20B, failing on any other magic); the export rewriter and the
signature remover instead key on the COFF `Machine` field, choosing 112
when `Machine = 0x8664` and 96 otherwise, the signature remover placing
its write 32 bytes (4 slots) past that base. -/
theorem C3_data_directory_locators (peOffset machine : Nat) :
    importDataDirOffset (peOffset + 4 + 20) 0x10B =
        Except.ok (peOffset + 4 + 20 + 96) ∧
      importDataDirOffset (peOffset + 4 + 20) 0x20B =
        Except.ok (peOffset + 4 + 20 + 112) ∧
      (∀ magic, magic ≠ 0x10B → magic ≠ 0x20B →
        importDataDirOffset (peOffset + 4 + 20) magic =
          Except.error PEError.unknownMagic) ∧
      exportDataDirOffset peOffset machine =
        (if machine = 0x8664 then peOffset + 4 + 20 + 112
          else peOffset + 4 + 20 + 96) ∧
      securityDirPatchOffset peOffset machine =
        exportDataDirOffset peOffset machine + 32 := by
  refine ⟨by simp [importDataDirOffset], by simp [importDataDirOffset], ?_, rfl, ?_⟩
  · intro magic hm1 hm2
    simp [importDataDirOffset, hm1, hm2]
  · unfold securityDirPatchOffset exportDataDirOffset
    by_cases hm : machine = 0x8664
    · rw [if_pos hm, if_pos hm]
    · rw [if_neg hm, if_neg hm]

/-- Witness for C3 at concrete header values. -/
theorem C3_data_directory_locators_witness :
    importDataDirOffset (128 + 4 + 20) 0x10B = Except.ok (128 + 4 + 20 + 96) ∧
      (0x1234 : Nat) ≠ 0x10B ∧ (0x1234 : Nat) ≠ 0x20B ∧
      importDataDirOffset (128 + 4 + 20) 0x1234 =
        Except.error PEError.unknownMagic := by
  refine ⟨(C3_data_directory_locators 128 0x14C).1, by decide, by decide, ?_⟩
  exact (C3_data_directory_locators 128 0x14C).2.2.1 0x1234 (by decide) (by decide)

/-! ## Section injector (src/internal/pe/entropy.go, InjectSection) -/

/-- Section-header fields of one section. -/
structure PESection where
  name : List Nat
  virtualSize : Nat
  virtualAddress : Nat
  sizeOfRawData : Nat
  pointerToRawData : Nat
  characteristics : Nat
deriving DecidableEq, Inhabited

/-- Header state consumed and produced by the section injector: the
parsed section table plus the header fields it reads and writes. -/
structure PEState where
  sections : List PESection
  fileAlignment : Nat
  sectionAlignment : Nat
  peHeaderOffset : Nat
  numberOfSections : Nat
  optionalHeaderSize : Nat
  sizeOfImage : Nat
deriving DecidableEq

/-- Model of `alignUp(value, alignment)` in `uint32` arithmetic. -/
def alignUp (value alignment : Nat) : Nat :=
  if alignment = 0 then value
  else (value + alignment - 1) % 4294967296 / alignment * alignment

/-- Model of `InjectSection(name, data, characteristics)`: check header
space (the section table extended by one 40-byte header must not reach
the first section's raw data; the `(n+1)*40` product is computed in
`uint16` as in the Go code), take the LAST section of the parsed table,
derive the new section's file offset and virtual address by aligning
that section's raw and virtual ends, reject names over 8 bytes, append
the new zero-padded-name section, bump `NumberOfSections` (a `uint16`)
and recompute `SizeOfImage`.  The parsed Go table is never empty
(`debug/pe` indexes `Sections[0]`), so the empty table maps to an I/O
error here. -/
def injectSection (st : PEState) (name : List Nat) (payload : List Nat)
    (characteristics : Nat) : Except PEError PEState :=
  match hs : st.sections with
  | [] => .error .ioError
  | s0 :: rest =>
    let sectionTableOffset := st.peHeaderOffset + 4 + 20 + st.optionalHeaderSize
    let newSectionHeaderEnd :=
      sectionTableOffset + (st.numberOfSections + 1) % 65536 * 40 % 65536
    if s0.pointerToRawData < newSectionHeaderEnd then .error .headerOverflow
    else
      let last := (s0 :: rest).getLast (by simp)
      let newFileOffset :=
        alignUp ((last.pointerToRawData + last.sizeOfRawData) % 4294967296)
          st.fileAlignment
      let newVirtualAddress :=
        alignUp ((last.virtualAddress + last.virtualSize) % 4294967296)
          st.sectionAlignment
      let rawSize := alignUp (payload.length % 4294967296) st.fileAlignment
      let virtualSize := payload.length % 4294967296
      if 8 < name.length then .error .nameTooLong
      else
        .ok { st with
          sections := st.sections ++
            [⟨name ++ List.replicate (8 - name.length) 0, virtualSize,
              newVirtualAddress, rawSize, newFileOffset, characteristics⟩]
          numberOfSections := (st.numberOfSections + 1) % 65536
          sizeOfImage :=
            (newVirtualAddress + alignUp virtualSize st.sectionAlignment) %
              4294967296 }

/-- Largest `PointerToRawData + SizeOfRawData` over a section table (in
`uint32`), the quantity the claim designates as defining `last`. -/
def maxRawEnd (sections : List PESection) : Nat :=
  sections.foldl
    (fun acc s => max acc ((s.pointerToRawData + s.sizeOfRawData) % 4294967296)) 0

lemma alignUp_mod (v a : Nat) (ha : a ≠ 0) : alignUp v a % a = 0 := by
  unfold alignUp
  rw [if_neg ha]
  exact Nat.mul_mod_left _ a

/-- Counterexample to claim C4: on a section table whose final entry is
NOT the section with the largest raw end (first section ends at raw
0x2000, final table entry at raw 0x600), the injector places the new
section at `align_up(0x600) = 0x600`, not at
`align_up(max raw end) = 0x2000`: the code takes the last table entry,
not the section with the largest `PointerToRawData + SizeOfRawData`. -/
theorem C4_counterexample :
    (injectSection
        ⟨[⟨[46, 97], 4096, 4096, 4096, 4096, 0⟩,
          ⟨[46, 98], 512, 8192, 512, 1024, 0⟩], 512, 4096, 128, 2, 240, 12288⟩
        [46, 110] (List.replicate 64 170) 2).map
      (fun s => (s.sections.getLastD default).pointerToRawData) =
        Except.ok 1536 ∧
      alignUp (maxRawEnd
        [⟨[46, 97], 4096, 4096, 4096, 4096, 0⟩,
          ⟨[46, 98], 512, 8192, 512, 1024, 0⟩]) 512 = 8192 ∧
      (1536 : Nat) ≠ 8192 := by
  refine ⟨rfl, by decide, by decide⟩

/-- Claim C4 (amended): whenever `inject_section` succeeds, the new
section is appended at the end of the table with
`PointerToRawData = align_up(last.PointerToRawData + last.SizeOfRawData, FileAlignment)`
and
`VirtualAddress = align_up(last.VirtualAddress + last.VirtualSize, SectionAlignment)`
where `last` is the FINAL entry of the section table (not, as the claim
says, the section with the largest raw end — see the counterexample;
the two coincide exactly when the table's final entry has the maximal
raw end), `VirtualSize = len(payload)`,
`SizeOfRawData = align_up(len(payload), FileAlignment)`,
`NumberOfSections` is incremented (as a `uint16`), and
`SizeOfImage = VirtualAddress + align_up(VirtualSize, SectionAlignment)`;
moreover the new offsets are multiples of the respective alignments. -/
theorem C4_inject_section (st : PEState) (name payload : List Nat)
    (characteristics : Nat) (s' : PEState)
    (h : injectSection st name payload characteristics = Except.ok s') :
    s'.sections = st.sections ++
        [⟨name ++ List.replicate (8 - name.length) 0,
          payload.length % 4294967296,
          alignUp (((st.sections.getLastD default).virtualAddress +
            (st.sections.getLastD default).virtualSize) % 4294967296)
            st.sectionAlignment,
          alignUp (payload.length % 4294967296) st.fileAlignment,
          alignUp (((st.sections.getLastD default).pointerToRawData +
            (st.sections.getLastD default).sizeOfRawData) % 4294967296)
            st.fileAlignment,
          characteristics⟩] ∧
      s'.numberOfSections = (st.numberOfSections + 1) % 65536 ∧
      s'.sizeOfImage =
        (alignUp (((st.sections.getLastD default).virtualAddress +
            (st.sections.getLastD default).virtualSize) % 4294967296)
            st.sectionAlignment +
          alignUp (payload.length % 4294967296) st.sectionAlignment) %
          4294967296 ∧
      name.length ≤ 8 ∧
      (st.fileAlignment ≠ 0 →
        alignUp (((st.sections.getLastD default).pointerToRawData +
          (st.sections.getLastD default).sizeOfRawData) % 4294967296)
          st.fileAlignment % st.fileAlignment = 0) ∧
      (st.sectionAlignment ≠ 0 →
        alignUp (((st.sections.getLastD default).virtualAddress +
          (st.sections.getLastD default).virtualSize) % 4294967296)
          st.sectionAlignment % st.sectionAlignment = 0) := by
  unfold injectSection at h
  cases hsec : st.sections with
  | nil =>
    rw [hsec] at h
    cases h
  | cons s0 rest =>
    rw [hsec] at h
    simp only at h
    have hlastd : (s0 :: rest).getLastD default = (s0 :: rest).getLast (by simp) := by
      rw [List.getLastD_cons, List.getLast_eq_getLastD]
    by_cases hhdr : s0.pointerToRawData <
        st.peHeaderOffset + 4 + 20 + st.optionalHeaderSize +
          (st.numberOfSections + 1) % 65536 * 40 % 65536
    · rw [if_pos hhdr] at h
      cases h
    · rw [if_neg hhdr] at h
      by_cases hname : 8 < name.length
      · rw [if_pos hname] at h
        cases h
      · rw [if_neg hname] at h
        have hs' := (Except.ok.inj h).symm
        subst hs'
        rw [hlastd]
        refine ⟨rfl, rfl, rfl, by omega, ?_, ?_⟩
        · intro ha
          exact alignUp_mod _ _ ha
        · intro ha
          exact alignUp_mod _ _ ha

/-- Witness for C4 at the concrete input of spec scenario S2: one
section table whose last raw end is 0x1C00 and virtual end 0x4B40, file
alignment 0x200, section alignment 0x1000, a 0x40-byte payload; applying
the theorem at the computed result shows the appended section and
updated header fields. -/
theorem C4_inject_section_witness :
    injectSection ⟨[⟨[46, 116], 832, 18432, 1024, 6144, 0⟩], 512, 4096,
        128, 1, 240, 24576⟩ [46, 110] (List.replicate 64 170) 2 =
      Except.ok ⟨[⟨[46, 116], 832, 18432, 1024, 6144, 0⟩,
        ⟨[46, 110, 0, 0, 0, 0, 0, 0], 64, 20480, 512, 7168, 2⟩], 512, 4096,
        128, 2, 240, 24576⟩ ∧
      (⟨[⟨[46, 116], 832, 18432, 1024, 6144, 0⟩,
        ⟨[46, 110, 0, 0, 0, 0, 0, 0], 64, 20480, 512, 7168, 2⟩], 512, 4096,
        128, 2, 240, 24576⟩ : PEState).numberOfSections = (1 + 1) % 65536 := by
  refine ⟨rfl, ?_⟩
  exact (C4_inject_section ⟨[⟨[46, 116], 832, 18432, 1024, 6144, 0⟩], 512,
    4096, 128, 1, 240, 24576⟩ [46, 110] (List.replicate 64 170) 2 _ rfl).2.1

/-! ## Export-table rewriter (src/internal/pe/resource.go, export part) -/

/-- One export-table entry: name bytes (empty for ordinal-only exports),
ordinal and function RVA. -/
structure ExportFunction where
  name : List Nat
  ordinal : Nat
  rva : Nat
deriving DecidableEq, Inhabited

/-- ASCII lowercase of one byte; `strings.ToLower` restricted to the
ASCII byte strings PE export names are. -/
def toLowerByte (b : Nat) : Nat :=
  if 65 ≤ b ∧ b ≤ 90 then b + 32 else b

/-- ASCII lowercase of a byte string. -/
def toLowerBytes (s : List Nat) : List Nat :=
  s.map toLowerByte

/-- Go's `<` on strings: strict lexicographic order on byte lists, a
proper prefix being smaller. -/
def bytesLt : List Nat → List Nat → Bool
  | [], [] => false
  | [], _ :: _ => true
  | _ :: _, [] => false
  | a :: as, b :: bs =>
    if a < b then true else if b < a then false else bytesLt as bs

lemma bytesLt_asymm : ∀ x y : List Nat, bytesLt x y = true → bytesLt y x = false := by
  intro x
  induction x with
  | nil =>
    intro y h
    cases y with
    | nil => simp [bytesLt] at h
    | cons b bs => rfl
  | cons a as ih =>
    intro y h
    cases y with
    | nil => simp [bytesLt] at h
    | cons b bs =>
      simp only [bytesLt] at h ⊢
      by_cases hab : a < b
      · rw [if_neg (by omega), if_pos hab]
      · by_cases hba : b < a
        · rw [if_neg hab, if_pos hba] at h
          cases h
        · rw [if_neg hab, if_neg hba] at h
          rw [if_neg hba, if_neg hab]
          exact ih bs h

lemma bytesLt_trans : ∀ x y z : List Nat,
    bytesLt x y = true → bytesLt y z = true → bytesLt x z = true := by
  intro x
  induction x with
  | nil =>
    intro y z h1 h2
    cases y with
    | nil => simp [bytesLt] at h1
    | cons b bs =>
      cases z with
      | nil => simp [bytesLt] at h2
      | cons c cs => rfl
  | cons a as ih =>
    intro y z h1 h2
    cases y with
    | nil => simp [bytesLt] at h1
    | cons b bs =>
      cases z with
      | nil => simp [bytesLt] at h2
      | cons c cs =>
        simp only [bytesLt] at h1 h2 ⊢
        by_cases hab : a < b
        · by_cases hbc : b < c
          · rw [if_pos (by omega)]
          · by_cases hcb : c < b
            · rw [if_neg hbc, if_pos hcb] at h2
              cases h2
            · rw [if_pos (by omega)]
        · by_cases hba : b < a
          · rw [if_neg hab, if_pos hba] at h1
            cases h1
          · rw [if_neg hab, if_neg hba] at h1
            by_cases hbc : b < c
            · rw [if_pos (by omega)]
            · by_cases hcb : c < b
              · rw [if_neg hbc, if_pos hcb] at h2
                cases h2
              · rw [if_neg hbc, if_neg hcb] at h2
                rw [if_neg (by omega), if_neg (by omega)]
                exact ih bs cs h1 h2

lemma bytesLt_eq_of_not_lt : ∀ x y : List Nat,
    bytesLt x y = false → bytesLt y x = false → x = y := by
  intro x
  induction x with
  | nil =>
    intro y h1 h2
    cases y with
    | nil => rfl
    | cons b bs => simp [bytesLt] at h1
  | cons a as ih =>
    intro y h1 h2
    cases y with
    | nil => simp [bytesLt] at h2
    | cons b bs =>
      simp only [bytesLt] at h1 h2
      by_cases hab : a < b
      · rw [if_pos hab] at h1
        cases h1
      · by_cases hba : b < a
        · rw [if_pos hba] at h2
          cases h2
        · rw [if_neg hab, if_neg hba] at h1
          rw [if_neg hba, if_neg hab] at h2
          rw [ih bs h1 h2, show a = b by omega]

lemma bytesLt_false_trans (x y z : List Nat) (h1 : bytesLt x y = false)
    (h2 : bytesLt y z = false) : bytesLt x z = false := by
  cases hxz : bytesLt x z with
  | false => rfl
  | true =>
    by_cases hyx : bytesLt y x = true
    · rw [bytesLt_trans y x z hyx hxz] at h2
      cases h2
    · rw [bytesLt_eq_of_not_lt x y h1 (by
        cases hv : bytesLt y x
        · rfl
        · exact absurd hv hyx)] at hxz
      rw [hxz] at h2
      cases h2

/-- The `sort.Slice` comparator of `rebuildExportTable` (lines 697-705):
entries with empty names sort last, otherwise compare the lowercased
names with Go string `<`. -/
def exportLess (a b : ExportFunction) : Bool :=
  if a.name = [] then false
  else if b.name = [] then true
  else bytesLt (toLowerBytes a.name) (toLowerBytes b.name)

/-- The sortedness relation `sort.Slice` guarantees on its output:
element `a` may precede `b` iff `b` is not strictly smaller. -/
def exportLe (a b : ExportFunction) : Prop :=
  exportLess b a = false

instance : DecidableRel exportLe :=
  fun a b => inferInstanceAs (Decidable (exportLess b a = false))

lemma exportLess_asymm (a b : ExportFunction) (h : exportLess a b = true) :
    exportLess b a = false := by
  unfold exportLess at h ⊢
  by_cases ha : a.name = []
  · rw [if_pos ha] at h
    cases h
  · by_cases hb : b.name = []
    · rw [if_pos hb]
    · rw [if_neg ha, if_neg hb] at h
      rw [if_neg hb, if_neg ha]
      exact bytesLt_asymm _ _ h

instance : IsTotal ExportFunction exportLe := by
  constructor
  intro a b
  unfold exportLe
  cases hv : exportLess b a with
  | false => exact Or.inl rfl
  | true => exact Or.inr (exportLess_asymm b a hv)

instance : IsTrans ExportFunction exportLe := by
  constructor
  intro a b c hab hbc
  unfold exportLe at hab hbc ⊢
  unfold exportLess at hab hbc ⊢
  by_cases hc : c.name = []
  · rw [if_pos hc]
  · rw [if_neg hc]
    by_cases ha : a.name = []
    · by_cases hb : b.name = []
      · rw [if_neg hc, if_pos hb] at hbc
        cases hbc
      · rw [if_neg hb, if_pos ha] at hab
        cases hab
    · rw [if_neg ha]
      by_cases hb : b.name = []
      · rw [if_neg hc, if_pos hb] at hbc
        cases hbc
      · rw [if_neg hb, if_neg ha] at hab
        rw [if_neg hc, if_neg hb] at hbc
        exact bytesLt_false_trans _ _ _ hbc hab

/-- The sort step of `rebuildExportTable`.  Go's `sort.Slice` guarantees
a permutation of the input that is sorted with respect to the comparator
(the relative order of comparator-equal entries is unspecified); it is
modelled by a concrete sorted permutation. -/
def sortExports (fns : List ExportFunction) : List ExportFunction :=
  List.insertionSort exportLe fns

/-- Indices of the named exports in table order — the `namedExports`
slice of `writeExportDataWithRVA` (lines 805-810). -/
def namedIndices (fns : List ExportFunction) : List Nat :=
  (List.range fns.length).filter (fun i => decide ((fns.getD i default).name ≠ []))

/-- The name strings the name-pointer table points to, in table order
(entry `j` of the table is the RVA of the name of function
`namedExports[j]`; the model records the pointed-to string itself). -/
def namePointerNames (fns : List ExportFunction) : List (List Nat) :=
  (namedIndices fns).map (fun i => (fns.getD i default).name)

/-- The ordinal table: entry `j` is `uint16(idx)` where `idx` is the
function's index in the address table (lines 853-858), not its ordinal
value. -/
def ordinalTable (fns : List ExportFunction) : List Nat :=
  (namedIndices fns).map (fun i => i % 65536)

/-- The export address table: entry `i` is function `i`'s RVA (lines
847-850). -/
def addressTable (fns : List ExportFunction) : List Nat :=
  fns.map (fun f => f.rva % 4294967296)

/-- Model of `AddExport(name, rva)`: reject an exact-name duplicate,
otherwise append the function with ordinal `max + 1` (a `uint16`); the
caller then rebuilds the table via the sort. -/
def addExport (exports : List ExportFunction) (name : List Nat) (rva : Nat) :
    Except PEError (List ExportFunction) :=
  if exports.any (fun e => decide (e.name = name)) then .error .alreadyExported
  else
    let maxOrdinal := exports.foldl (fun acc e => max acc (e.ordinal % 65536)) 0
    .ok (exports ++ [⟨name, (maxOrdinal + 1) % 65536, rva⟩])

/-- Helper of `ModifyExport`: update the RVA of the first entry carrying
the given name (the Go loop breaks at the first match). -/
def setFirstRVA : List ExportFunction → List Nat → Nat → List ExportFunction
  | [], _, _ => []
  | e :: rest, name, rva =>
    if e.name = name then { e with rva := rva } :: rest
    else e :: setFirstRVA rest name rva

/-- Model of `ModifyExport(name, newRVA)`: fail when the name is absent,
otherwise update the first matching entry; the caller then rebuilds the
table via the sort. -/
def modifyExport (exports : List ExportFunction) (name : List Nat)
    (newRVA : Nat) : Except PEError (List ExportFunction) :=
  if exports.any (fun e => decide (e.name = name)) then
    .ok (setFirstRVA exports name newRVA)
  else .error .notFound

lemma namedIndices_map_getD (fns : List ExportFunction) :
    (namedIndices fns).map (fun i => fns.getD i default) =
      fns.filter (fun f => decide (f.name ≠ [])) := by
  unfold namedIndices
  induction fns with
  | nil => rfl
  | cons f rest ih =>
    have hstep : (List.range (f :: rest).length).filter
        (fun i => decide (((f :: rest).getD i default).name ≠ [])) =
        (if decide (f.name ≠ []) then [0] else []) ++
          ((List.range rest.length).filter
            (fun i => decide ((rest.getD i default).name ≠ []))).map Nat.succ := by
      rw [List.length_cons, List.range_succ_eq_map, List.filter_cons]
      have hcongr : List.filter
          ((fun i => decide (((f :: rest).getD i default).name ≠ [])))
          ((List.range rest.length).map Nat.succ) =
          ((List.range rest.length).filter
            (fun i => decide ((rest.getD i default).name ≠ []))).map Nat.succ := by
        rw [List.filter_map]
        congr 1
      rw [hcongr]
      cases hd : decide (f.name ≠ []) <;> simp_all
    rw [hstep, List.map_append, List.map_map]
    have hmap2 : ((List.range rest.length).filter
        (fun i => decide ((rest.getD i default).name ≠ []))).map
          ((fun i => (f :: rest).getD i default) ∘ Nat.succ) =
        ((List.range rest.length).filter
          (fun i => decide ((rest.getD i default).name ≠ []))).map
            (fun i => rest.getD i default) := by
      apply List.map_congr_left
      intro i _hi
      simp [Function.comp, List.getD_cons_succ]
    rw [hmap2, ih, List.filter_cons]
    cases hd : decide (f.name ≠ []) <;> simp [hd]

/-- Counterexample to claim C7: a DLL exporting `Foo` accepts
`add_export("foo", …)` (the duplicate check is exact-name), and the
rebuilt name-pointer table then points to `Foo`, `foo` — two entries
with identical lowercase bytes — so it is NOT in strictly ascending
order by the lowercase bytes of the pointed-to names. -/
theorem C7_counterexample :
    addExport [⟨[70, 111, 111], 1, 256⟩] [102, 111, 111] 512 =
        Except.ok [⟨[70, 111, 111], 1, 256⟩, ⟨[102, 111, 111], 2, 512⟩] ∧
      ¬ List.Chain' (fun x y : List Nat => bytesLt x y = true)
        ((namePointerNames (sortExports
          [⟨[70, 111, 111], 1, 256⟩, ⟨[102, 111, 111], 2, 512⟩])).map
            toLowerBytes) := by
  refine ⟨rfl, ?_⟩
  have hlist : (namePointerNames (sortExports
      [⟨[70, 111, 111], 1, 256⟩, ⟨[102, 111, 111], 2, 512⟩])).map
        toLowerBytes = [[102, 111, 111], [102, 111, 111]] := by decide
  rw [hlist]
  intro h
  exact absurd (List.chain'_pair.mp h) (by decide)

/-- Claim C7 (amended): after a successful `add_export` or
`modify_export`, the rebuilt name-pointer table is in NON-strictly
ascending order by the lowercase bytes of the pointed-to names (ties
arise exactly between names equal after lowercasing, as the
counterexample shows; names are compared with Go string `<` on the
`strings.ToLower` images), every pointed-to name is non-empty (empty
names sort last and are excluded from the table), and — for tables of at
most 2^16 functions, where the `uint16` cast is lossless — each
ordinal-table entry holds the function's index into the address table,
at which the address table carries that function's RVA. -/
theorem C7_export_table (exports : List ExportFunction) (name : List Nat)
    (rva newRVA : Nat) (fns : List ExportFunction)
    (h : addExport exports name rva = Except.ok fns ∨
      modifyExport exports name newRVA = Except.ok fns) :
    List.Chain' (fun x y : List Nat =>
        bytesLt (toLowerBytes y) (toLowerBytes x) = false)
      (namePointerNames (sortExports fns)) ∧
    (∀ nm ∈ namePointerNames (sortExports fns), nm ≠ []) ∧
    ((sortExports fns).length ≤ 65536 →
      ordinalTable (sortExports fns) = namedIndices (sortExports fns) ∧
      ∀ i ∈ namedIndices (sortExports fns),
        (addressTable (sortExports fns)).getD i 0 =
          ((sortExports fns).getD i default).rva % 4294967296) := by
  have hsorted : List.Pairwise exportLe (sortExports fns) :=
    List.sorted_insertionSort exportLe fns
  have hnames : namePointerNames (sortExports fns) =
      ((sortExports fns).filter (fun f => decide (f.name ≠ []))).map
        (fun f => f.name) := by
    unfold namePointerNames
    rw [← namedIndices_map_getD, List.map_map]
    rfl
  have hidx_lt : ∀ i ∈ namedIndices (sortExports fns),
      i < (sortExports fns).length := by
    intro i hi
    unfold namedIndices at hi
    exact List.mem_range.mp (List.mem_filter.mp hi).1
  refine ⟨?_, ?_, ?_⟩
  · rw [hnames]
    apply List.Pairwise.chain'
    rw [List.pairwise_map]
    apply List.Pairwise.imp_of_mem ?_ (hsorted.filter _)
    intro a b ha hb hle
    have hanm : a.name ≠ [] := by
      simpa using (List.mem_filter.mp ha).2
    have hbnm : b.name ≠ [] := by
      simpa using (List.mem_filter.mp hb).2
    unfold exportLe exportLess at hle
    rw [if_neg hbnm, if_neg hanm] at hle
    exact hle
  · intro nm hnm
    rw [hnames] at hnm
    obtain ⟨f, hf, hfe⟩ := List.mem_map.mp hnm
    have := (List.mem_filter.mp hf).2
    rw [← hfe]
    simpa using this
  · intro h16
    refine ⟨?_, ?_⟩
    · unfold ordinalTable
      have : ∀ i ∈ namedIndices (sortExports fns), i % 65536 = i := by
        intro i hi
        have := hidx_lt i hi
        omega
      calc (namedIndices (sortExports fns)).map (fun i => i % 65536) =
          (namedIndices (sortExports fns)).map (fun i => i) :=
            List.map_congr_left this
        _ = namedIndices (sortExports fns) := List.map_id _
    · intro i hi
      have hlt : i < (sortExports fns).length := hidx_lt i hi
      unfold addressTable
      rw [List.getD_eq_getElem?_getD, List.getElem?_map,
        List.getElem?_eq_getElem hlt]
      show ((sortExports fns)[i].rva % 4294967296) = _
      rw [List.getD_eq_getElem?_getD, List.getElem?_eq_getElem hlt]
      rfl

/-- Witness for C7: add `A` to a table exporting `b`; the rebuilt
name-pointer table (`A` before `b` after the case-insensitive sort) is
nondecreasing by lowercase bytes. -/
theorem C7_export_table_witness :
    (addExport [⟨[98], 1, 256⟩] [65] 512 =
        Except.ok [⟨[98], 1, 256⟩, ⟨[65], 2, 512⟩]) ∧
      List.Chain' (fun x y : List Nat =>
          bytesLt (toLowerBytes y) (toLowerBytes x) = false)
        (namePointerNames (sortExports [⟨[98], 1, 256⟩, ⟨[65], 2, 512⟩])) := by
  refine ⟨rfl, ?_⟩
  exact (C7_export_table [⟨[98], 1, 256⟩] [65] 512 0
    [⟨[98], 1, 256⟩, ⟨[65], 2, 512⟩] (Or.inl rfl)).1

/-- Witness for C9 at a concrete file: a 64-byte all-zero file (so
`e_lfanew = 0`, 4-byte aligned); two checksum updates equal one. -/
theorem C9_updateChecksum_idempotent_witness :
    64 ≤ (List.replicate 64 0 : List Nat).length ∧
      word32At (List.replicate 64 0) 60 % 4 = 0 ∧
      (updateChecksum (List.replicate 64 0 : List Nat).length
          (List.replicate 64 0)).bind
        (fun g => updateChecksum (List.replicate 64 0 : List Nat).length g) =
        updateChecksum (List.replicate 64 0 : List Nat).length
          (List.replicate 64 0) := by
  refine ⟨by decide, by decide, ?_⟩
  exact C9_updateChecksum_idempotent (List.replicate 64 0) (by decide) (by decide)
